import Mathlib

/-!
Verification of the congestion-aware routing and signal-preemption core of the
repository: a shallow embedding of `replanner.py`, `multi_ambulance_runner.py`,
`path_selection.py`, `stage0_traffic_heat.py`, `generate_lights_and_ambulance.py`
and `stage2_full_rules.py`.

Conventions used throughout:
* Python `float` arithmetic on distances and costs is modelled over `ℚ`
  (exact field arithmetic); `math.inf` entries of the `dist` array are `none`
  and the `-1` entries of the `prev` array are `none`.
* Python lists are Lean `List`s.  Reads use `getD`; the source only indexes
  in range (an out-of-range index would raise `IndexError` there).
* Unbounded `while` loops take a `fuel : ℕ` argument and return `none` when
  the fuel is exhausted, modelling a loop run that has not terminated.
-/

/-! ### List helper lemmas (getD / set) -/

theorem getD_set_self {α : Type} (l : List α) (i : ℕ) (x d : α) (h : i < l.length) :
    (l.set i x).getD i d = x := by
  induction l generalizing i with
  | nil => simp at h
  | cons a t ih =>
    cases i with
    | zero => simp [List.getD]
    | succ n =>
      have hn : n < t.length := by simpa using h
      simpa [List.getD] using ih n hn

theorem getD_set_ne {α : Type} (l : List α) {i j : ℕ} (x d : α) (h : j ≠ i) :
    (l.set i x).getD j d = l.getD j d := by
  induction l generalizing i j with
  | nil => simp
  | cons a t ih =>
    cases i with
    | zero =>
      cases j with
      | zero => exact absurd rfl h
      | succ m => simp [List.getD]
    | succ n =>
      cases j with
      | zero => simp [List.getD]
      | succ m =>
        have hm : m ≠ n := fun hc => h (by simp [hc])
        simpa [List.getD] using ih (i := n) (j := m) hm

theorem getD_replicate_none {α : Type} (n i : ℕ) :
    (List.replicate n (none : Option α)).getD i none = none := by
  induction n generalizing i with
  | zero => simp
  | succ m ih =>
    cases i with
    | zero => simp [List.getD]
    | succ k => simpa [List.getD] using ih k

/-! ### Congestion-aware Dijkstra (`replanner.py`, `dijkstra_weighted`) -/

/-- Search state of the Dijkstra loop: the `dist` array (`none` = `math.inf`),
the `prev` array (`none` = `-1`), and the priority queue of `(distance, node)`
pairs (`replanner.py` lines 10-13). -/
abbrev DijkState := List (Option ℚ) × List (Option ℕ) × List (ℚ × ℕ)

/-- Lexicographic strict order on heap entries, the order `heapq` pops by. -/
def entryLt (a b : ℚ × ℕ) : Bool :=
  decide (a.1 < b.1 ∨ (a.1 = b.1 ∧ a.2 < b.2))

/-- The lexicographically least entry of the queue (what `heapq.heappop` yields). -/
def pqMin : List (ℚ × ℕ) → Option (ℚ × ℕ)
  | [] => none
  | x :: xs => some (xs.foldl (fun m y => if entryLt y m then y else m) x)

/-- Pop the least entry off the queue, modelling `heapq.heappop(pq)`. -/
def popMin (pq : List (ℚ × ℕ)) : Option ((ℚ × ℕ) × List (ℚ × ℕ)) :=
  match pqMin pq with
  | none => none
  | some m => some (m, pq.erase m)

/-- `nd < dist[v]`, where the `dist` entry may be `math.inf` (`none`). -/
def ltOpt (nd : ℚ) : Option ℚ → Bool
  | none => true
  | some dv => decide (nd < dv)

/-- One relaxation of the inner `for v,w in adj.get(u,[])` loop body of
`replanner.py` lines 21-26: the step cost is
`alpha*w + beta*((counts[u]+counts[v])/2 / maxc)` with `maxc` fixed. -/
def relaxW (counts : List ℕ) (maxc alpha beta : ℚ) (u : ℕ) (d : ℚ)
    (s : DijkState) (e : ℕ × ℚ) : DijkState :=
  let traffic : ℚ := (((counts.getD u 0 : ℕ) : ℚ) + ((counts.getD e.1 0 : ℕ) : ℚ)) / 2
  let nd := d + alpha * e.2 + beta * (traffic / maxc)
  if ltOpt nd (s.1.getD e.1 none) then
    (s.1.set e.1 (some nd), s.2.1.set e.1 (some u), (nd, e.1) :: s.2.2)
  else s

/-- The `while pq:` loop of `replanner.py` lines 15-26.  Pops the least queue
entry; skips stale entries (`d != dist[u]`); stops when the target is popped;
otherwise relaxes all outgoing edges.  Returns the final `dist` and `prev`
arrays, or `none` when `fuel` runs out before the loop finishes. -/
def dijkstraLoopW (adj : ℕ → List (ℕ × ℚ)) (counts : List ℕ) (maxc alpha beta : ℚ)
    (target : ℕ) : ℕ → DijkState → Option (List (Option ℚ) × List (Option ℕ))
  | 0, _ => none
  | fuel + 1, (dist, prev, pq) =>
    match popMin pq with
    | none => some (dist, prev)
    | some ((d, u), pq') =>
      if dist.getD u none = some d then
        if u = target then some (dist, prev)
        else
          dijkstraLoopW adj counts maxc alpha beta target fuel
            ((adj u).foldl (relaxW counts maxc alpha beta u d) (dist, prev, pq'))
      else dijkstraLoopW adj counts maxc alpha beta target fuel (dist, prev, pq')

/-- Path reconstruction of `replanner.py` lines 30-36
(`while u != -1: path.append(u); if u == start: break; u = prev[u]`, followed
by `reversed(path)`; the accumulator already builds the reversed list).
Returns `none` when `fuel` runs out (a `prev` cycle would make the Python
loop run forever). -/
def reconstructAux (prev : List (Option ℕ)) (start : ℕ) :
    ℕ → ℕ → List ℕ → Option (List ℕ)
  | 0, _, _ => none
  | fuel + 1, u, acc =>
    if u = start then some (u :: acc)
    else
      match prev.getD u none with
      | none => some (u :: acc)
      | some p => reconstructAux prev start fuel p (u :: acc)

/-- `dist = [math.inf]*N; dist[start] = 0` (`replanner.py` lines 10, 12). -/
def initDist (nodes : List (ℤ × ℤ)) (start : ℕ) : List (Option ℚ) :=
  (List.replicate nodes.length (none : Option ℚ)).set start (some 0)

/-- `prev = [-1]*N` (`replanner.py` line 11). -/
def initPrev (nodes : List (ℤ × ℤ)) : List (Option ℕ) :=
  List.replicate nodes.length (none : Option ℕ)

/-- `maxc = max(1, max(counts))` (`replanner.py` line 14), the congestion
normalization denominator, computed once from the snapshot at the start of a
solve.  (`max` of an empty Python list would raise; the fold returns `0`.) -/
def maxCongestion (counts : List ℕ) : ℚ :=
  ((max 1 (counts.foldl max 0) : ℕ) : ℚ)

/-- `dijkstra_weighted(adj, nodes, counts, start, target, alpha=1.0, beta=2.0)`
of `replanner.py` lines 8-36.  The outer `none` means the run did not
terminate within `fuel`; the inner `none` is Python's `return None`
(unreachable target). -/
def dijkstra_weighted (adj : ℕ → List (ℕ × ℚ)) (nodes : List (ℤ × ℤ))
    (counts : List ℕ) (start target : ℕ) (alpha beta : ℚ) (fuel : ℕ) :
    Option (Option (List ℕ)) :=
  match dijkstraLoopW adj counts (maxCongestion counts) alpha beta target fuel
      (initDist nodes start, initPrev nodes, [(0, start)]) with
  | none => none
  | some (dist, prev) =>
    match dist.getD target none with
    | none => some none
    | some _ => (reconstructAux prev start fuel target []).map some

/-! ### Specification-side solver for C1

The spec (§4.2) describes the point-to-point search as a generic Dijkstra over
a fixed per-edge step-cost function, computed once per solve from one
congestion snapshot.  The definitions below follow the spec's words; C1 states
that `dijkstra_weighted` refines them. -/

/-- Generic relaxation with an externally supplied fixed step-cost function. -/
def relaxSpec (cost : ℕ → ℕ → ℚ → ℚ) (u : ℕ) (d : ℚ)
    (s : DijkState) (e : ℕ × ℚ) : DijkState :=
  let nd := d + cost u e.1 e.2
  if ltOpt nd (s.1.getD e.1 none) then
    (s.1.set e.1 (some nd), s.2.1.set e.1 (some u), (nd, e.1) :: s.2.2)
  else s

/-- Generic Dijkstra loop over a fixed step-cost function. -/
def dijkstraLoopSpec (adj : ℕ → List (ℕ × ℚ)) (cost : ℕ → ℕ → ℚ → ℚ)
    (target : ℕ) : ℕ → DijkState → Option (List (Option ℚ) × List (Option ℕ))
  | 0, _ => none
  | fuel + 1, (dist, prev, pq) =>
    match popMin pq with
    | none => some (dist, prev)
    | some ((d, u), pq') =>
      if dist.getD u none = some d then
        if u = target then some (dist, prev)
        else
          dijkstraLoopSpec adj cost target fuel
            ((adj u).foldl (relaxSpec cost u d) (dist, prev, pq'))
      else dijkstraLoopSpec adj cost target fuel (dist, prev, pq')

/-- The spec's step cost for traversing edge `(u,v)` of weight `w`:
`alpha * w + beta * (congestion(u) + congestion(v)) / 2 / max(1, max congestion)`,
with the normalization denominator a pure function of the congestion snapshot
taken at the start of the solve. -/
def specStepCost (counts : List ℕ) (alpha beta : ℚ) (u v : ℕ) (w : ℚ) : ℚ :=
  alpha * w + beta * ((((counts.getD u 0 : ℕ) : ℚ) + ((counts.getD v 0 : ℕ) : ℚ)) / 2
    / maxCongestion counts)

/-- Spec-side point-to-point solve: the generic loop instantiated with a fixed
step-cost function, then the same unreachability check and reconstruction. -/
def dijkstraSpecSolve (adj : ℕ → List (ℕ × ℚ)) (nodes : List (ℤ × ℤ))
    (cost : ℕ → ℕ → ℚ → ℚ) (start target : ℕ) (fuel : ℕ) :
    Option (Option (List ℕ)) :=
  match dijkstraLoopSpec adj cost target fuel
      (initDist nodes start, initPrev nodes, [(0, start)]) with
  | none => none
  | some (dist, prev) =>
    match dist.getD target none with
    | none => some none
    | some _ => (reconstructAux prev start fuel target []).map some

theorem relaxW_eq_relaxSpec (counts : List ℕ) (alpha beta : ℚ) (u : ℕ) (d : ℚ)
    (s : DijkState) (e : ℕ × ℚ) :
    relaxW counts (maxCongestion counts) alpha beta u d s e =
      relaxSpec (specStepCost counts alpha beta) u d s e := by
  have hnd :
      d + alpha * e.2 + beta *
          ((((counts.getD u 0 : ℕ) : ℚ) + ((counts.getD e.1 0 : ℕ) : ℚ)) / 2
            / maxCongestion counts) =
        d + specStepCost counts alpha beta u e.1 e.2 := by
    simp only [specStepCost]; ring
  simp only [relaxW, relaxSpec, hnd]

theorem foldl_relaxW_eq_spec (counts : List ℕ) (alpha beta : ℚ) (u : ℕ) (d : ℚ)
    (es : List (ℕ × ℚ)) (s : DijkState) :
    es.foldl (relaxW counts (maxCongestion counts) alpha beta u d) s =
      es.foldl (relaxSpec (specStepCost counts alpha beta) u d) s := by
  induction es generalizing s with
  | nil => rfl
  | cons e t ih =>
    simp only [List.foldl_cons, relaxW_eq_relaxSpec counts alpha beta u d s e, ih]

theorem dijkstraLoopW_eq_spec (adj : ℕ → List (ℕ × ℚ)) (counts : List ℕ)
    (alpha beta : ℚ) (target : ℕ) (fuel : ℕ) (s : DijkState) :
    dijkstraLoopW adj counts (maxCongestion counts) alpha beta target fuel s =
      dijkstraLoopSpec adj (specStepCost counts alpha beta) target fuel s := by
  induction fuel generalizing s with
  | zero => rfl
  | succ n ih =>
    obtain ⟨dist, prev, pq⟩ := s
    simp only [dijkstraLoopW, dijkstraLoopSpec]
    cases popMin pq with
    | none => rfl
    | some du =>
      obtain ⟨⟨d, u⟩, pq'⟩ := du
      dsimp only
      by_cases hd : dist.getD u none = some d
      · rw [if_pos hd, if_pos hd]
        by_cases ht : u = target
        · rw [if_pos ht, if_pos ht]
        · rw [if_neg ht, if_neg ht, foldl_relaxW_eq_spec, ih]
      · rw [if_neg hd, if_neg hd, ih]

/-- C1: For every graph, congestion snapshot, start and target, the
congestion-aware search of `dijkstra_weighted` accumulates, for each traversed
edge `(u,v)` of weight `w`, exactly the step cost
`alpha*w + beta*((counts[u]+counts[v])/2)/max(1, max counts)`: the solve equals
the spec-side generic Dijkstra run with that fixed step-cost function, whose
normalization denominator is computed once from the congestion snapshot at the
start of the solve and never changes during it.  (Defaults `alpha=1`, `beta=2`
are instances of the quantifiers.) -/
theorem dijkstra_weighted_cost_spec (adj : ℕ → List (ℕ × ℚ)) (nodes : List (ℤ × ℤ))
    (counts : List ℕ) (start target : ℕ) (alpha beta : ℚ) (fuel : ℕ) :
    dijkstra_weighted adj nodes counts start target alpha beta fuel =
      dijkstraSpecSolve adj nodes (specStepCost counts alpha beta) start target fuel := by
  simp only [dijkstra_weighted, dijkstraSpecSolve,
    dijkstraLoopW_eq_spec adj counts alpha beta target fuel]

/-! ### Route validity (C9) and unreachability (C5) -/

/-- There is an edge from `u` to `v` in the adjacency structure. -/
def hasEdge (adj : ℕ → List (ℕ × ℚ)) (u v : ℕ) : Prop :=
  ∃ w, (v, w) ∈ adj u

/-- Every pair of consecutive junctions of the list is joined by an edge. -/
def pathChain (adj : ℕ → List (ℕ × ℚ)) : List ℕ → Prop
  | [] => True
  | [_] => True
  | a :: b :: rest => hasEdge adj a b ∧ pathChain adj (b :: rest)

/-- Invariant of the Dijkstra search state: `dist` and `prev` have equal
length; a set `prev[v] = u` entry means both `dist[v]` and `dist[u]` are
finite and the graph has an edge from `u` to `v`; and every finite `dist`
entry other than the start has a set `prev` entry. -/
def DijkInv (adj : ℕ → List (ℕ × ℚ)) (start : ℕ)
    (dist : List (Option ℚ)) (prev : List (Option ℕ)) : Prop :=
  dist.length = prev.length ∧
  (∀ v u, prev.getD v none = some u →
    dist.getD v none ≠ none ∧ dist.getD u none ≠ none ∧ hasEdge adj u v) ∧
  (∀ v, v ≠ start → dist.getD v none ≠ none → prev.getD v none ≠ none)

theorem getD_set_ne_none {α : Type} {dist : List (Option α)} {x v : ℕ} (nd : α)
    (hx : dist.getD x none ≠ none) : (dist.set v (some nd)).getD x none ≠ none := by
  by_cases hxv : x = v
  · subst hxv
    by_cases h : x < dist.length
    · rw [getD_set_self _ _ _ _ h]; simp
    · rw [List.set_eq_of_length_le (not_lt.mp h)]; exact hx
  · rw [getD_set_ne _ _ _ hxv]; exact hx

theorem DijkInv.update {adj : ℕ → List (ℕ × ℚ)} {start : ℕ}
    {dist : List (Option ℚ)} {prev : List (Option ℕ)}
    (h : DijkInv adj start dist prev) (u v : ℕ) (nd : ℚ)
    (hu : dist.getD u none ≠ none) (he : hasEdge adj u v) :
    DijkInv adj start (dist.set v (some nd)) (prev.set v (some u)) := by
  obtain ⟨hlen, hB, hC⟩ := h
  by_cases hv : v < dist.length
  · have hvp : v < prev.length := hlen ▸ hv
    refine ⟨by simp [hlen], ?_, ?_⟩
    · intro v' u' hprev
      by_cases hvv : v' = v
      · subst hvv
        rw [getD_set_self _ _ _ _ hvp] at hprev
        injection hprev with huu
        subst huu
        refine ⟨?_, ?_, he⟩
        · rw [getD_set_self _ _ _ _ hv]; simp
        · exact getD_set_ne_none _ hu
      · rw [getD_set_ne _ _ _ hvv] at hprev
        obtain ⟨h1, h2, h3⟩ := hB v' u' hprev
        refine ⟨?_, getD_set_ne_none _ h2, h3⟩
        rw [getD_set_ne _ _ _ hvv]; exact h1
    · intro v' hvs hdist
      by_cases hvv : v' = v
      · subst hvv
        rw [getD_set_self _ _ _ _ hvp]; simp
      · rw [getD_set_ne _ _ _ hvv] at hdist
        rw [getD_set_ne _ _ _ hvv]
        exact hC v' hvs hdist
  · have h1 : dist.set v (some nd) = dist := List.set_eq_of_length_le (not_lt.mp hv)
    have h2 : prev.set v (some u) = prev :=
      List.set_eq_of_length_le (by rw [← hlen]; exact not_lt.mp hv)
    rw [h1, h2]; exact ⟨hlen, hB, hC⟩

theorem relaxW_inv (adj : ℕ → List (ℕ × ℚ)) (start : ℕ) (counts : List ℕ)
    (maxc alpha beta : ℚ) (u : ℕ) (d : ℚ) (s : DijkState) (e : ℕ × ℚ)
    (he : e ∈ adj u) (h : DijkInv adj start s.1 s.2.1)
    (hu : s.1.getD u none ≠ none) :
    DijkInv adj start (relaxW counts maxc alpha beta u d s e).1
        (relaxW counts maxc alpha beta u d s e).2.1 ∧
      (relaxW counts maxc alpha beta u d s e).1.getD u none ≠ none := by
  obtain ⟨dist, prev, pq⟩ := s
  obtain ⟨v, w⟩ := e
  simp only [relaxW]
  set nd := d + alpha * w +
    beta * ((((counts.getD u 0 : ℕ) : ℚ) + ((counts.getD v 0 : ℕ) : ℚ)) / 2 / maxc) with hnd
  by_cases hb : ltOpt nd (dist.getD v none) = true
  · rw [if_pos hb]
    exact ⟨h.update u v nd hu ⟨w, he⟩, getD_set_ne_none _ hu⟩
  · rw [if_neg hb]
    exact ⟨h, hu⟩

theorem foldl_relaxW_inv (adj : ℕ → List (ℕ × ℚ)) (start : ℕ) (counts : List ℕ)
    (maxc alpha beta : ℚ) (u : ℕ) (d : ℚ) (es : List (ℕ × ℚ)) (s : DijkState)
    (hes : ∀ e ∈ es, e ∈ adj u) (h : DijkInv adj start s.1 s.2.1)
    (hu : s.1.getD u none ≠ none) :
    DijkInv adj start (es.foldl (relaxW counts maxc alpha beta u d) s).1
      (es.foldl (relaxW counts maxc alpha beta u d) s).2.1 := by
  induction es generalizing s with
  | nil => exact h
  | cons e t ih =>
    have hstep := relaxW_inv adj start counts maxc alpha beta u d s e
      (hes e (by simp)) h hu
    exact ih _ (fun e' he' => hes e' (List.mem_cons_of_mem e he')) hstep.1 hstep.2

theorem dijkstraLoopW_inv (adj : ℕ → List (ℕ × ℚ)) (counts : List ℕ)
    (maxc alpha beta : ℚ) (target start : ℕ) (fuel : ℕ) (s : DijkState)
    (dist : List (Option ℚ)) (prev : List (Option ℕ))
    (hInv : DijkInv adj start s.1 s.2.1)
    (heq : dijkstraLoopW adj counts maxc alpha beta target fuel s = some (dist, prev)) :
    DijkInv adj start dist prev := by
  induction fuel generalizing s with
  | zero => simp [dijkstraLoopW] at heq
  | succ n ih =>
    obtain ⟨d0, p0, pq⟩ := s
    simp only [dijkstraLoopW] at heq
    cases hpq : popMin pq with
    | none =>
      rw [hpq] at heq
      injection heq with heq'
      injection heq' with hd hp
      rw [← hd, ← hp]
      exact hInv
    | some du =>
      obtain ⟨⟨d, u⟩, pq'⟩ := du
      rw [hpq] at heq
      dsimp only at heq
      by_cases hd : d0.getD u none = some d
      · rw [if_pos hd] at heq
        by_cases ht : u = target
        · rw [if_pos ht] at heq
          injection heq with heq'
          injection heq' with hdd hpp
          rw [← hdd, ← hpp]
          exact hInv
        · rw [if_neg ht] at heq
          refine ih _ ?_ heq
          exact foldl_relaxW_inv adj start counts maxc alpha beta u d (adj u)
            (d0, p0, pq') (fun e he => he) hInv (by rw [hd]; simp)
      · rw [if_neg hd] at heq
        exact ih (d0, p0, pq') hInv heq

theorem initDijkInv (adj : ℕ → List (ℕ × ℚ)) (nodes : List (ℤ × ℤ)) (start : ℕ) :
    DijkInv adj start (initDist nodes start) (initPrev nodes) := by
  refine ⟨by simp [initDist, initPrev], ?_, ?_⟩
  · intro v u hprev
    rw [initPrev, getD_replicate_none] at hprev
    cases hprev
  · intro v hv hdist
    exfalso
    apply hdist
    rw [initDist, getD_set_ne _ _ _ hv, getD_replicate_none]

theorem reconstructAux_spec (adj : ℕ → List (ℕ × ℚ)) (start target : ℕ)
    (dist : List (Option ℚ)) (prev : List (Option ℕ))
    (hInv : DijkInv adj start dist prev) (fuel : ℕ) :
    ∀ (u : ℕ) (acc res : List ℕ),
      reconstructAux prev start fuel u acc = some res →
      dist.getD u none ≠ none →
      pathChain adj (u :: acc) → (u :: acc).getLast? = some target →
      res.head? = some start ∧ res ≠ [] ∧ pathChain adj res ∧
        res.getLast? = some target := by
  induction fuel with
  | zero => intro u acc res h; simp [reconstructAux] at h
  | succ n ih =>
    intro u acc res h hdist hchain hlast
    simp only [reconstructAux] at h
    by_cases hu : u = start
    · rw [if_pos hu] at h
      injection h with h'
      rw [← h']
      subst hu
      exact ⟨rfl, by simp, hchain, hlast⟩
    · rw [if_neg hu] at h
      cases hp : prev.getD u none with
      | none => exact absurd hp (hInv.2.2 u hu hdist)
      | some p =>
        rw [hp] at h
        obtain ⟨h1, h2, h3⟩ := hInv.2.1 u p hp
        exact ih p (u :: acc) res h h2 ⟨h3, hchain⟩
          (by rw [List.getLast?_cons_cons]; exact hlast)

/-- C9: Whenever the weighted shortest-path solve returns a route, the route
is a non-empty sequence of junction indices whose first element is the start,
whose last element is the target, in which every pair of consecutive junctions
is joined by an edge of the graph; when start equals target the route is the
single-element sequence `[start]`. -/
theorem dijkstra_weighted_route_valid (adj : ℕ → List (ℕ × ℚ))
    (nodes : List (ℤ × ℤ)) (counts : List ℕ) (start target : ℕ)
    (alpha beta : ℚ) (fuel : ℕ) (p : List ℕ)
    (h : dijkstra_weighted adj nodes counts start target alpha beta fuel =
      some (some p)) :
    p ≠ [] ∧ p.head? = some start ∧ p.getLast? = some target ∧
      pathChain adj p ∧ (start = target → p = [start]) := by
  unfold dijkstra_weighted at h
  cases hloop : dijkstraLoopW adj counts (maxCongestion counts) alpha beta target fuel
      (initDist nodes start, initPrev nodes, [(0, start)]) with
  | none => rw [hloop] at h; cases h
  | some dp =>
    obtain ⟨dist, prev⟩ := dp
    rw [hloop] at h
    dsimp only at h
    cases hdt : dist.getD target none with
    | none => rw [hdt] at h; cases h
    | some dT =>
      rw [hdt] at h
      cases hrec : reconstructAux prev start fuel target [] with
      | none => rw [hrec] at h; cases h
      | some q =>
        rw [hrec] at h
        injection h with h'
        injection h' with h''
        subst h''
        have hInv := dijkstraLoopW_inv adj counts (maxCongestion counts) alpha beta
          target start fuel _ dist prev (initDijkInv adj nodes start) hloop
        have hmain := reconstructAux_spec adj start target dist prev hInv fuel
          target [] q hrec (by rw [hdt]; simp) trivial rfl
        refine ⟨hmain.2.1, hmain.1, hmain.2.2.2, hmain.2.2.1, ?_⟩
        intro hst
        subst hst
        cases fuel with
        | zero => simp [reconstructAux] at hrec
        | succ m =>
          simp only [reconstructAux, if_pos rfl] at hrec
          injection hrec with hq
          rw [← hq]

/-- The caller's spawn fallback at `multi_ambulance_runner.py` lines 130-131:
`p = dijkstra_weighted(...)`; `if p is None: p = [si, target]`. -/
def spawnPath (res : Option (List ℕ)) (si target : ℕ) : List ℕ :=
  match res with
  | none => [si, target]
  | some p => p

/-- C5: The congestion-aware solve reports failure (returns `None`, i.e.
`some none` here) exactly when the target's computed distance remains
infinite at the end of the search loop, and in that case the caller spawning
an agent falls back to the direct two-node route `[start, target]`. -/
theorem dijkstra_weighted_unreachable (adj : ℕ → List (ℕ × ℚ))
    (nodes : List (ℤ × ℤ)) (counts : List ℕ) (start target : ℕ)
    (alpha beta : ℚ) (fuel : ℕ) (dist : List (Option ℚ))
    (prev : List (Option ℕ)) (si t : ℕ)
    (hloop : dijkstraLoopW adj counts (maxCongestion counts) alpha beta target fuel
      (initDist nodes start, initPrev nodes, [(0, start)]) = some (dist, prev)) :
    (dijkstra_weighted adj nodes counts start target alpha beta fuel = some none ↔
      dist.getD target none = none) ∧
    spawnPath none si t = [si, t] := by
  refine ⟨?_, rfl⟩
  unfold dijkstra_weighted
  rw [hloop]
  dsimp only
  cases hdt : dist.getD target none with
  | none => simp
  | some dT =>
    dsimp only
    constructor
    · intro hcon
      cases hrec : reconstructAux prev start fuel target [] with
      | none => rw [hrec] at hcon; cases hcon
      | some q =>
        rw [hrec] at hcon
        injection hcon with hc
        cases hc
    · intro hcon
      cases hcon

/-! ### Concrete instances used by the witnesses -/

/-- Empty adjacency (no edges). -/
def adjEmptyW : ℕ → List (ℕ × ℚ) := fun _ => []

/-- Two junctions joined by an undirected edge of weight 1. -/
def adjTwoW : ℕ → List (ℕ × ℚ) :=
  fun u => if u = 0 then [(1, (1 : ℚ))] else if u = 1 then [(0, (1 : ℚ))] else []

def nodesW : List (ℤ × ℤ) := [(0, 0), (1, 1)]

def countsW : List ℕ := [0, 0]

section

set_option allowUnsafeReducibility true
attribute [local semireducible] Rat.add Rat.mul Rat.sub Rat.div Rat.inv Rat.ofScientific

theorem dijkstra_weighted_unreachable_witness :
    dijkstraLoopW adjEmptyW countsW (maxCongestion countsW) 1 2 1 2
        (initDist nodesW 0, initPrev nodesW, [(0, 0)]) =
      some ([some 0, none], [none, none]) ∧
    ((dijkstra_weighted adjEmptyW nodesW countsW 0 1 1 2 2 = some none ↔
        ([some 0, none] : List (Option ℚ)).getD 1 none = none) ∧
      spawnPath none 3 4 = [3, 4]) :=
  ⟨by decide, dijkstra_weighted_unreachable adjEmptyW nodesW countsW 0 1 1 2 2
    [some 0, none] [none, none] 3 4 (by decide)⟩

theorem dijkstra_weighted_route_valid_witness :
    dijkstra_weighted adjTwoW nodesW countsW 0 1 1 2 5 = some (some [0, 1]) ∧
      (([0, 1] : List ℕ) ≠ [] ∧ ([0, 1] : List ℕ).head? = some 0 ∧
        ([0, 1] : List ℕ).getLast? = some 1 ∧ pathChain adjTwoW [0, 1] ∧
        ((0 : ℕ) = 1 → ([0, 1] : List ℕ) = [0])) :=
  ⟨by decide,
    dijkstra_weighted_route_valid adjTwoW nodesW countsW 0 1 1 2 5 [0, 1] (by decide)⟩

end

/-! ### Traffic-light state machine (C2) -/

/-- One per-junction light update of the Stage-0 simulation loop,
`stage0_traffic_heat.py` lines 140-154: decrement the timer, then advance the
phase when the decremented timer has reached 0, resetting the timer to the
next phase's configured duration.  Phase encoding (line 115): 0 = RED,
1 = GREEN, 2 = YELLOW. -/
def lightStep (gT yT rT : ℤ) (s : ℕ × ℤ) : ℕ × ℤ :=
  let timer := s.2 - 1
  if timer ≤ 0 then
    if s.1 = 1 then (2, yT)
    else if s.1 = 2 then (0, rT)
    else (1, gT)
  else (s.1, timer)

/-- One global light advancement of `generate_lights_and_ambulance.py` lines
181-196: when the timer is `≤ 1` the phase advances (RED→GREEN, GREEN→YELLOW,
YELLOW→RED) with the new phase's configured length, else the timer
decrements. -/
def lightStepGL (gl yl rl : ℤ) (s : ℕ × ℤ) : ℕ × ℤ :=
  if s.2 ≤ 1 then
    if s.1 = 0 then (1, gl) else if s.1 = 1 then (2, yl) else (0, rl)
  else (s.1, s.2 - 1)

/-- State invariant of a junction light at tick boundaries: the phase is one
of RED (0), GREEN (1), YELLOW (2) and the timer is at least 1 (in particular
non-negative). -/
def LightInv (s : ℕ × ℤ) : Prop := s.1 ≤ 2 ∧ 1 ≤ s.2

/-- Characterization of one Stage-0 tick from an invariant state: the phase
changes exactly when the start-of-tick timer is 1 (the in-tick decrement
brings it to 0), and every transition follows RED→GREEN, GREEN→YELLOW,
YELLOW→RED, resetting the timer to that phase's configured duration. -/
def stepChar (gT yT rT : ℤ) (s : ℕ × ℤ) : Prop :=
  ((lightStep gT yT rT s).1 ≠ s.1 ↔ s.2 = 1) ∧
  (s.2 = 1 → (s.1 = 0 → lightStep gT yT rT s = (1, gT)) ∧
    (s.1 = 1 → lightStep gT yT rT s = (2, yT)) ∧
    (s.1 = 2 → lightStep gT yT rT s = (0, rT)))

/-- The same characterization for the `generate_lights_and_ambulance.py`
advancement. -/
def stepCharGL (gl yl rl : ℤ) (s : ℕ × ℤ) : Prop :=
  ((lightStepGL gl yl rl s).1 ≠ s.1 ↔ s.2 = 1) ∧
  (s.2 = 1 → (s.1 = 0 → lightStepGL gl yl rl s = (1, gl)) ∧
    (s.1 = 1 → lightStepGL gl yl rl s = (2, yl)) ∧
    (s.1 = 2 → lightStepGL gl yl rl s = (0, rl)))

theorem lightStep_preserves (gT yT rT : ℤ) (hg : 1 ≤ gT) (hy : 1 ≤ yT)
    (hr : 1 ≤ rT) (s : ℕ × ℤ) (h : LightInv s) : LightInv (lightStep gT yT rT s) := by
  obtain ⟨st, t⟩ := s
  obtain ⟨h1, h2⟩ := h
  simp only [lightStep, LightInv] at *
  split_ifs <;> constructor <;> omega

theorem lightStepGL_preserves (gl yl rl : ℤ) (hg : 1 ≤ gl) (hy : 1 ≤ yl)
    (hr : 1 ≤ rl) (s : ℕ × ℤ) (h : LightInv s) : LightInv (lightStepGL gl yl rl s) := by
  obtain ⟨st, t⟩ := s
  obtain ⟨h1, h2⟩ := h
  simp only [lightStepGL, LightInv] at *
  split_ifs <;> constructor <;> omega

theorem lightStep_iter_inv (gT yT rT : ℤ) (hg : 1 ≤ gT) (hy : 1 ≤ yT)
    (hr : 1 ≤ rT) (s0 : ℕ × ℤ) (h0 : LightInv s0) (n : ℕ) :
    LightInv ((lightStep gT yT rT)^[n] s0) := by
  induction n with
  | zero => simpa using h0
  | succ m ih =>
    rw [Function.iterate_succ_apply']
    exact lightStep_preserves gT yT rT hg hy hr _ ih

theorem lightStepGL_iter_inv (gl yl rl : ℤ) (hg : 1 ≤ gl) (hy : 1 ≤ yl)
    (hr : 1 ≤ rl) (t0 : ℕ × ℤ) (k0 : LightInv t0) (n : ℕ) :
    LightInv ((lightStepGL gl yl rl)^[n] t0) := by
  induction n with
  | zero => simpa using k0
  | succ m ih =>
    rw [Function.iterate_succ_apply']
    exact lightStepGL_preserves gl yl rl hg hy hr _ ih

theorem lightStep_char (gT yT rT : ℤ) (s : ℕ × ℤ) (h : LightInv s) :
    stepChar gT yT rT s := by
  obtain ⟨st, t⟩ := s
  obtain ⟨h1, h2⟩ := h
  have hst : st = 0 ∨ st = 1 ∨ st = 2 := by omega
  constructor
  · by_cases ht : t = 1
    · subst ht
      rcases hst with h0 | h0 | h0 <;> subst h0 <;> simp [lightStep]
    · have ht2 : ¬(t - 1 ≤ 0) := by simp at h1 h2 ⊢; omega
      simp [lightStep, ht2, ht]
  · intro ht
    subst ht
    refine ⟨?_, ?_, ?_⟩ <;> intro h0 <;> simp at h0 <;> subst h0 <;> simp [lightStep]

theorem lightStepGL_char (gl yl rl : ℤ) (s : ℕ × ℤ) (h : LightInv s) :
    stepCharGL gl yl rl s := by
  obtain ⟨st, t⟩ := s
  obtain ⟨h1, h2⟩ := h
  have hst : st = 0 ∨ st = 1 ∨ st = 2 := by omega
  constructor
  · by_cases ht : t = 1
    · subst ht
      rcases hst with h0 | h0 | h0 <;> subst h0 <;> simp [lightStepGL]
    · have ht2 : ¬(t ≤ 1) := by omega
      simp [lightStepGL, ht2, ht]
  · intro ht
    subst ht
    refine ⟨?_, ?_, ?_⟩ <;> intro h0 <;> simp at h0 <;> subst h0 <;> simp [lightStepGL]

/-- C2 counterexample: with Stage-0's configured durations (G=60, Y=10,
R=30), from the reachable initial state (RED, timer 1) — `random.randint(1,
R_T)` can return 1 — a tick performs a phase transition (RED→GREEN) although
the junction's timer at the start of that tick is 1, not 0.  This refutes
"a phase transition occurs in a tick only if the junction's timer was 0 at
the start of that tick". -/
theorem signal_transition_at_timer_one :
    (lightStep 60 10 30 (0, 1)).1 ≠ ((0 : ℕ), (1 : ℤ)).1 ∧
      ((0 : ℕ), (1 : ℤ)).2 ≠ 0 := by decide

/-- C2 (amended): for both signal simulations, from any initialization with
phase ∈ {RED, GREEN, YELLOW} and timer ≥ 1 (as the sources initialize), at
every tick the phase stays in {RED, GREEN, YELLOW} and the timer stays ≥ 1
(in particular ≥ 0); a phase transition occurs in a tick exactly when the
timer was 1 — not 0 — at the start of that tick (the in-tick decrement
brings it to 0); and every transition follows the fixed cycle RED→GREEN,
GREEN→YELLOW, YELLOW→RED, resetting the timer to the new phase's configured
duration. -/
theorem signal_cycle_invariant (gT yT rT gl yl rl : ℤ) (s0 t0 : ℕ × ℤ) (n : ℕ)
    (hg : 1 ≤ gT) (hy : 1 ≤ yT) (hr : 1 ≤ rT)
    (hgl : 1 ≤ gl) (hyl : 1 ≤ yl) (hrl : 1 ≤ rl)
    (h0 : LightInv s0) (k0 : LightInv t0) :
    (LightInv ((lightStep gT yT rT)^[n] s0) ∧
      stepChar gT yT rT ((lightStep gT yT rT)^[n] s0)) ∧
    (LightInv ((lightStepGL gl yl rl)^[n] t0) ∧
      stepCharGL gl yl rl ((lightStepGL gl yl rl)^[n] t0)) := by
  have hs := lightStep_iter_inv gT yT rT hg hy hr s0 h0 n
  have htl := lightStepGL_iter_inv gl yl rl hgl hyl hrl t0 k0 n
  exact ⟨⟨hs, lightStep_char gT yT rT _ hs⟩, ⟨htl, lightStepGL_char gl yl rl _ htl⟩⟩

theorem signal_cycle_invariant_witness :
    ((1 : ℤ) ≤ 60 ∧ (1 : ℤ) ≤ 10 ∧ (1 : ℤ) ≤ 30 ∧ (1 : ℤ) ≤ 120 ∧ (1 : ℤ) ≤ 30 ∧
      (1 : ℤ) ≤ 150 ∧ LightInv (0, 1) ∧ LightInv (2, 5)) ∧
    ((LightInv ((lightStep 60 10 30)^[3] (0, 1)) ∧
        stepChar 60 10 30 ((lightStep 60 10 30)^[3] (0, 1))) ∧
      (LightInv ((lightStepGL 120 30 150)^[3] (2, 5)) ∧
        stepCharGL 120 30 150 ((lightStepGL 120 30 150)^[3] (2, 5)))) :=
  ⟨by refine ⟨by norm_num, by norm_num, by norm_num, by norm_num, by norm_num,
      by norm_num, ?_, ?_⟩ <;> exact ⟨by norm_num, by norm_num⟩,
    signal_cycle_invariant 60 10 30 120 30 150 (0, 1) (2, 5) 3
      (by norm_num) (by norm_num) (by norm_num) (by norm_num) (by norm_num)
      (by norm_num) ⟨by norm_num, by norm_num⟩ ⟨by norm_num, by norm_num⟩⟩

/-! ### Tier partition (C3) -/

/-- `partition_counts(L)` of `stage2_full_rules.py` lines 84-98.  The four
extra arguments model the results of the Python float operations:
`r1 = int(round(0.15*L))` and `r2 = int(round(0.40*L))` (round-half-even of
the float products), and `r1f = int(L*0.15)`, `r2f = int(L*0.40)`
(truncations) used in the fallback branch.  When `n3 < 4` after the raw
split, up to `4 - n3` junctions move from tier 2 to tier 3, never taking
tier 2 below 3 (`take = min(need, n2-3)`). -/
def partition_counts (L r1 r2 r1f r2f : ℤ) : ℤ × ℤ × ℤ :=
  let n1 := max 1 r1
  let n2 := max 3 r2
  let n3 := L - n1 - n2
  let tk := if n3 < 4 then min (4 - n3) (n2 - 3) else 0
  let n2s := n2 - tk
  let n3s := n3 + tk
  if n3s < 0 then (max 1 r1f, max 3 r2f, L - max 1 r1f - max 3 r2f)
  else (n1, n2s, n3s)

/-- C3: for every route length L ≥ 4, the tier partition computed by
`partition_counts` satisfies n1 ≥ 1, n2 ≥ 3, n1 + n2 + n3 = L and n3 ≥ 0.
The hypotheses on `r1`, `r2` state that they are nearest integers to
`0.15*L` and `0.40*L` (`|20·r1 − 3·L| ≤ 10`, `|5·r2 − 2·L| ≤ 2`), which is
what Python's float `round` produces; the fallback truncations `r1f`, `r2f`
are unconstrained because that branch is unreachable for L ≥ 4. -/
theorem partition_counts_ok (L r1 r2 r1f r2f : ℤ) (hL : 4 ≤ L)
    (h1 : (20 * r1 - 3 * L).natAbs ≤ 10) (h2 : (5 * r2 - 2 * L).natAbs ≤ 2) :
    1 ≤ (partition_counts L r1 r2 r1f r2f).1 ∧
      3 ≤ (partition_counts L r1 r2 r1f r2f).2.1 ∧
      (partition_counts L r1 r2 r1f r2f).1 + (partition_counts L r1 r2 r1f r2f).2.1 +
        (partition_counts L r1 r2 r1f r2f).2.2 = L ∧
      0 ≤ (partition_counts L r1 r2 r1f r2f).2.2 := by
  simp only [partition_counts]
  split_ifs <;> dsimp only <;> omega

theorem partition_counts_ok_witness :
    (4 ≤ (7 : ℤ) ∧ ((20 * 1 - 3 * 7 : ℤ)).natAbs ≤ 10 ∧
      ((5 * 3 - 2 * 7 : ℤ)).natAbs ≤ 2) ∧
    (1 ≤ (partition_counts 7 1 3 1 2).1 ∧ 3 ≤ (partition_counts 7 1 3 1 2).2.1 ∧
      (partition_counts 7 1 3 1 2).1 + (partition_counts 7 1 3 1 2).2.1 +
        (partition_counts 7 1 3 1 2).2.2 = 7 ∧
      0 ≤ (partition_counts 7 1 3 1 2).2.2) :=
  ⟨by decide, partition_counts_ok 7 1 3 1 2 (by decide) (by decide) (by decide)⟩

/-! ### Stage-2 tiered preemption scenario (C8) -/

/-- Base green duration of `stage2_full_rules.py` line 79:
`G_T = int(10.0 * 10 * 0.6)`; the float product rounds to exactly 60.0, so
the truncation is 60. -/
def G_T : ℕ := 60

/-- Base yellow duration of `stage2_full_rules.py` line 80:
`Y_T = int(10.0 * 10 * 0.1)` = 10 (the float product is exactly 10.0). -/
def Y_T : ℕ := 10

/-- Base red duration of `stage2_full_rules.py` line 81:
`R_T = int(10.0 * 10 * 0.3)` = 30 (the float product rounds to exactly 30.0). -/
def R_T : ℕ := 30

/-- The three preemption tiers. -/
inductive Tier
  | t1
  | t2
  | t3
deriving DecidableEq

/-- Tier of route position `i` (`stage2_full_rules.py` lines 103-110):
positions `< n1` are tier 1, positions `< n1 + n2` tier 2, the rest tier 3. -/
def tierOfPos (n1 n2 : ℤ) (i : ℤ) : Tier :=
  if i < n1 then .t1 else if i < n1 + n2 then .t2 else .t3

/-- Tier of a junction: the `tiers` dict of `stage2_full_rules.py` lines
103-110 is filled by enumerating route positions, so for a junction occurring
several times the last position wins; junctions not on the route are absent
from the dict (`none`). -/
def tiersFor (route : List ℕ) (n1 n2 : ℤ) (j : ℕ) : Option Tier :=
  ((route.enum.filter (fun p => p.2 = j)).getLast?).map
    (fun pr => tierOfPos n1 n2 (pr.1 : ℤ))

/-- Selected-approach green duration (`stage2_full_rules.py` lines 123 and
127-140): base `G_T` for junctions off the route; tier 1
`max(1, int(G_T*2.0))` = 120, tier 2 `max(1, int(G_T*1.5))` = 90, tier 3
`G_T` unchanged (the float products are exactly 120.0 and 90.0). -/
def selG : Option Tier → ℕ
  | some .t1 => max 1 (2 * G_T)
  | some .t2 => max 1 (3 * G_T / 2)
  | some .t3 => G_T
  | none => G_T

/-- Selected-approach red duration (`stage2_full_rules.py` lines 123 and
127-140): base `R_T` for junctions off the route; tier 1
`max(1, int(R_T*0.25))` = 7, tier 2 `max(1, int(R_T*0.5))` = 15, tier 3
`max(1, int(R_T*0.6))` = 18 (the float product `30*0.6` rounds to exactly
18.0, i.e. the red duration is scaled by exactly 0.6). -/
def selR : Option Tier → ℕ
  | some .t1 => max 1 (R_T / 4)
  | some .t2 => max 1 (R_T / 2)
  | some .t3 => max 1 (3 * R_T / 5)
  | none => R_T

/-- Initial simulated selected-approach state (`stage2_full_rules.py` lines
146 and 149-151): every junction starts `[0, R]` (RED with its selected red
duration); then the first `n1` route junctions are preempted to `[1, G]`
(GREEN with their selected green duration).  Phase encoding: 0 = RED,
1 = GREEN. -/
def stage2InitState (route : List ℕ) (n1 n2 : ℤ) (nPre : ℕ) (j : ℕ) : ℕ × ℕ :=
  if j ∈ route.take nPre then (1, selG (tiersFor route n1 n2 j))
  else (0, selR (tiersFor route n1 n2 j))

/-- The preemption-scenario route `[0,1,2,3,4,5,6]` of length 7. -/
def route7 : List ℕ := [0, 1, 2, 3, 4, 5, 6]

/-- C8: for the route `[0..6]` of length L = 7 — Python rounds
`round(0.15*7) = 1` and `round(0.40*7) = 3`, so `partition_counts` receives
`r1 = 1`, `r2 = 3` (fallback truncations 1 and 2) — the tier partition
yields n1 = 1, n2 = 3, n3 = 3; the single tier-1 junction, at route
position 0, is forced to phase GREEN (1) with timer equal to 2× the
configured green duration; and the tier-3 junction at route position 6 has
its red duration scaled by exactly 0.6 (5·18 = 3·30) with its green duration
unchanged. -/
theorem stage2_preemption_scenario :
    partition_counts 7 1 3 1 2 = (1, 3, 3) ∧
    tiersFor route7 1 3 0 = some Tier.t1 ∧
    stage2InitState route7 1 3 1 0 = (1, 2 * G_T) ∧
    tiersFor route7 1 3 6 = some Tier.t3 ∧
    5 * selR (some Tier.t3) = 3 * R_T ∧
    selG (some Tier.t3) = G_T := by decide

/-! ### Multi-agent loop: replanning (C4) and congestion updates (C7, C10) -/

/-- An ambulance agent of `multi_ambulance_runner.py` line 132:
`{'start': si, 'path': p, 'pos_idx': 0, 'done': False}` (the spawn index
plays no role in the loop logic). -/
structure Agent where
  path : List ℕ
  posIdx : ℕ
  done : Bool
deriving DecidableEq

/-- The replanning step of `multi_ambulance_runner.py` lines 142-146 for one
agent: skipped for done agents (line 142); when `ticks % REPLAN_INTERVAL == 0`
and the cursor has not reached the route's last index, the solver runs from
the current junction `a['path'][a['pos_idx']]` to the fixed target; a truthy
result (`if newp:`) replaces the route and resets the cursor to 0, otherwise
the agent is left unchanged.  `solve` abstracts
`dijkstra_weighted(adj, nodes, counts_vals, ·, target)`; Python's `None` is
`none`.  (`ℕ` subtraction makes `length - 1 = 0` for an empty route, so the
guard fails exactly as Python's `pos_idx < -1` does.) -/
def replanStep (solve : ℕ → Option (List ℕ)) (R ticks : ℕ) (a : Agent) : Agent :=
  if a.done then a
  else if ticks % R = 0 ∧ a.posIdx < a.path.length - 1 then
    match solve (a.path.getD a.posIdx 0) with
    | some newp => if newp.isEmpty then a else { a with path := newp, posIdx := 0 }
    | none => a
  else a

/-- C4: for a non-done agent, exactly when the tick count is divisible by the
replanning interval R and the cursor has not reached the route's last index,
a new route is computed from the agent's current junction to its fixed
target; if the solve succeeds the route is replaced and the cursor reset to
0, and if it fails (returns no route) route and cursor are unchanged. -/
theorem replanStep_ok (solve : ℕ → Option (List ℕ)) (R ticks : ℕ) (a : Agent)
    (res : Option (List ℕ)) (hdone : a.done = false)
    (hres : solve (a.path.getD a.posIdx 0) = res) :
    (¬(ticks % R = 0 ∧ a.posIdx < a.path.length - 1) →
      replanStep solve R ticks a = a) ∧
    (ticks % R = 0 → a.posIdx < a.path.length - 1 →
      (res = none → replanStep solve R ticks a = a) ∧
      (res.getD [] ≠ [] →
        replanStep solve R ticks a =
          { path := res.getD [], posIdx := 0, done := false })) := by
  obtain ⟨path, pos, done⟩ := a
  cases hdone
  constructor
  · intro hcond
    simp only [replanStep, if_neg (Bool.false_ne_true), if_neg hcond]
  · intro hmod hpos
    constructor
    · intro hnone
      subst hnone
      simp only [replanStep, if_neg (Bool.false_ne_true), if_pos (And.intro hmod hpos)]
      rw [hres]
    · intro hne
      cases res with
      | none => simp at hne
      | some p =>
        have hp : p ≠ [] := by simpa using hne
        simp only [replanStep, if_neg (Bool.false_ne_true), if_pos (And.intro hmod hpos)]
        rw [hres]
        simp only [Option.getD_some]
        rw [if_neg (by simpa [List.isEmpty_iff] using hp)]

/-- Solver stub returning the fixed route `[5, 6]`, for the witness. -/
def solveC4 : ℕ → Option (List ℕ) := fun _ => some [5, 6]

/-- A non-done agent on route `[0, 1, 2]` with cursor 0, for the witness. -/
def agentC4 : Agent := { path := [0, 1, 2], posIdx := 0, done := false }

theorem replanStep_ok_witness :
    (agentC4.done = false ∧
      solveC4 (agentC4.path.getD agentC4.posIdx 0) = some [5, 6]) ∧
    ((¬(5 % 5 = 0 ∧ agentC4.posIdx < agentC4.path.length - 1) →
        replanStep solveC4 5 5 agentC4 = agentC4) ∧
      (5 % 5 = 0 → agentC4.posIdx < agentC4.path.length - 1 →
        ((some [5, 6] : Option (List ℕ)) = none →
          replanStep solveC4 5 5 agentC4 = agentC4) ∧
        ((some [5, 6] : Option (List ℕ)).getD [] ≠ [] →
          replanStep solveC4 5 5 agentC4 =
            { path := (some [5, 6] : Option (List ℕ)).getD [], posIdx := 0,
              done := false }))) :=
  ⟨⟨rfl, rfl⟩, replanStep_ok solveC4 5 5 agentC4 (some [5, 6]) rfl rfl⟩

/-- The congestion decrement of `multi_ambulance_runner.py` lines 160-161:
`if counts_vals[idx] > 0: counts_vals[idx] = max(0, counts_vals[idx]-1)`
— the spec's `decrement_on_pass`, clamped at 0. -/
def decrement_on_pass (counts : List ℤ) (idx : ℕ) : List ℤ :=
  if 0 < counts.getD idx 0 then counts.set idx (max 0 (counts.getD idx 0 - 1))
  else counts

theorem decrement_on_pass_mem_nonneg (counts : List ℤ) (idx : ℕ)
    (h : ∀ x ∈ counts, 0 ≤ x) : ∀ x ∈ decrement_on_pass counts idx, 0 ≤ x := by
  intro x hx
  unfold decrement_on_pass at hx
  split_ifs at hx
  · rcases List.mem_or_eq_of_mem_set hx with hmem | hEq
    · exact h x hmem
    · rw [hEq]; exact le_max_left 0 _
  · exact h x hx

theorem foldl_decrement_nonneg (ops : List ℕ) (counts : List ℤ)
    (h : ∀ x ∈ counts, 0 ≤ x) :
    ∀ x ∈ ops.foldl decrement_on_pass counts, 0 ≤ x := by
  induction ops generalizing counts with
  | nil => exact h
  | cons o t ih =>
    exact ih (decrement_on_pass counts o) (decrement_on_pass_mem_nonneg counts o h)

theorem getD_nonneg_of_mem_nonneg (l : List ℤ) (j : ℕ) (h : ∀ x ∈ l, 0 ≤ x) :
    0 ≤ l.getD j 0 := by
  induction l generalizing j with
  | nil => simp
  | cons a t ih =>
    cases j with
    | zero => exact h a (by simp)
    | succ m =>
      simpa [List.getD] using ih m (fun x hx => h x (List.mem_cons_of_mem a hx))

/-- C7: congestion counts are never driven below 0 by any number of
decrements: a decrement at a junction whose count is 0 leaves the counts
unchanged, and after any sequence of decrement-on-pass operations every
count remains non-negative. -/
theorem decrement_on_pass_floor (counts : List ℤ) (idx j : ℕ) (ops : List ℕ)
    (hnn : ∀ x ∈ counts, 0 ≤ x) :
    (counts.getD idx 0 = 0 → decrement_on_pass counts idx = counts) ∧
    0 ≤ (ops.foldl decrement_on_pass counts).getD j 0 := by
  constructor
  · intro h0
    unfold decrement_on_pass
    rw [h0]
    simp
  · exact getD_nonneg_of_mem_nonneg _ j (foldl_decrement_nonneg ops counts hnn)

/-- Concrete congestion snapshot for the C7 witness. -/
def countsC7 : List ℤ := [2, 0, 1]

theorem decrement_on_pass_floor_witness :
    (∀ x ∈ countsC7, 0 ≤ x) ∧
    ((countsC7.getD 1 0 = 0 → decrement_on_pass countsC7 1 = countsC7) ∧
      0 ≤ (([1, 1, 0, 2, 2] : List ℕ).foldl decrement_on_pass countsC7).getD 2 0) :=
  ⟨by decide, decrement_on_pass_floor countsC7 1 2 [1, 1, 0, 2, 2] (by decide)⟩

/-- The per-tick congestion decrement loop of `multi_ambulance_runner.py`
lines 159-161: `for a in ambulances:` — over all agents, with no `done`
filter — decrement at `a['path'][max(0, a['pos_idx']-1)]` (`ℕ` subtraction
clamps `pos_idx - 1` at 0 exactly like Python's `max(0, ·)` here). -/
def decrementPhase (agents : List Agent) (counts : List ℤ) : List ℤ :=
  agents.foldl (fun cs a => decrement_on_pass cs (a.path.getD (a.posIdx - 1) 0)) counts

theorem decrement_on_pass_getD_other (cs : List ℤ) (i j : ℕ) (hne : i ≠ j) :
    (decrement_on_pass cs i).getD j 0 = cs.getD j 0 := by
  unfold decrement_on_pass
  split_ifs
  · exact getD_set_ne cs _ _ (fun hc => hne hc.symm)
  · rfl

/-- C10: on every tick the congestion decrement is applied for every agent,
including agents already marked done — a done agent whose cursor sits at its
route's last index (route length ≥ 2) keeps decrementing at its
second-to-last route junction — the count at `a['path'][max(0,pos_idx-1)]`
is reduced by one exactly when it is positive (and a non-positive count is
untouched), and no congestion entry other than those named by some agent is
modified by the phase. -/
theorem decrementPhase_ok (agents : List Agent) (counts cs : List ℤ)
    (j idx : ℕ) (a1 : Agent)
    (hframe : ∀ a ∈ agents, a.path.getD (a.posIdx - 1) 0 ≠ j)
    (hdone : a1.done = true) (hlen : 2 ≤ a1.path.length)
    (hpos : a1.posIdx = a1.path.length - 1) (hidx : idx < cs.length) :
    (decrementPhase agents counts).getD j 0 = counts.getD j 0 ∧
    decrementPhase [a1] cs =
      decrement_on_pass cs (a1.path.getD (a1.path.length - 2) 0) ∧
    (0 < cs.getD idx 0 →
      (decrement_on_pass cs idx).getD idx 0 = cs.getD idx 0 - 1) ∧
    (cs.getD idx 0 ≤ 0 → decrement_on_pass cs idx = cs) := by
  refine ⟨?_, ?_, ?_, ?_⟩
  · induction agents generalizing counts with
    | nil => rfl
    | cons a t ih =>
      have hstep := decrement_on_pass_getD_other counts
        (a.path.getD (a.posIdx - 1) 0) j (hframe a (by simp))
      calc (decrementPhase (a :: t) counts).getD j 0
          = (decrementPhase t (decrement_on_pass counts
              (a.path.getD (a.posIdx - 1) 0))).getD j 0 := rfl
        _ = (decrement_on_pass counts (a.path.getD (a.posIdx - 1) 0)).getD j 0 :=
            ih _ (fun a' ha' => hframe a' (List.mem_cons_of_mem a ha'))
        _ = counts.getD j 0 := hstep
  · show decrement_on_pass cs (a1.path.getD (a1.posIdx - 1) 0) = _
    rw [hpos]
    congr 1
  · intro hp
    unfold decrement_on_pass
    rw [if_pos hp, getD_set_self _ _ _ _ hidx]
    omega
  · intro hp
    unfold decrement_on_pass
    rw [if_neg (by omega)]

/-- A finished (done) agent on route `[4, 0]` with its cursor at the last
index, for the C10 witness. -/
def agentC10 : Agent := { path := [4, 0], posIdx := 1, done := true }

theorem decrementPhase_ok_witness :
    ((∀ a ∈ [agentC10], a.path.getD (a.posIdx - 1) 0 ≠ 1) ∧ agentC10.done = true ∧
      2 ≤ agentC10.path.length ∧ agentC10.posIdx = agentC10.path.length - 1 ∧
      0 < ([3, 0] : List ℤ).length) ∧
    ((decrementPhase [agentC10] [3, 0]).getD 1 0 = ([3, 0] : List ℤ).getD 1 0 ∧
      decrementPhase [agentC10] [3, 0] =
        decrement_on_pass [3, 0] (agentC10.path.getD (agentC10.path.length - 2) 0) ∧
      (0 < ([3, 0] : List ℤ).getD 0 0 →
        (decrement_on_pass [3, 0] 0).getD 0 0 = ([3, 0] : List ℤ).getD 0 0 - 1) ∧
      (([3, 0] : List ℤ).getD 0 0 ≤ 0 → decrement_on_pass [3, 0] 0 = [3, 0])) :=
  ⟨⟨by decide, by decide, by decide, by decide, by decide⟩,
    decrementPhase_ok [agentC10] [3, 0] [3, 0] 1 0 agentC10 (by decide) (by decide)
      (by decide) (by decide) (by decide)⟩

/-! ### Graph construction (C6) -/

/-- Squared Euclidean distance between two integer points.  The source stores
`w = math.hypot(dx, dy)`, the real square root of this value; the square is
kept in the embedding so the graph stays in decidable integer arithmetic,
and the claim's theorem relates the stored value to the real Euclidean
distance through `Real.sqrt`. -/
def sqDist (p q : ℤ × ℤ) : ℤ := (p.1 - q.1) ^ 2 + (p.2 - q.2) ^ 2

theorem sqDist_comm (p q : ℤ × ℤ) : sqDist p q = sqDist q p := by
  unfold sqDist
  ring

/-- `node_map = {nodes[i]: i for i in range(len(nodes))}` lookup
(`multi_ambulance_runner.py` lines 69 and 71): for duplicate coordinates the
dict keeps the last index. -/
def nodeMapLookup (nodes : List (ℤ × ℤ)) (pt : ℤ × ℤ) : Option ℕ :=
  (List.range nodes.length).foldl
    (fun acc i => if nodes.getD i (0, 0) = pt then some i else acc) none

/-- The linear scan of `find_nearest_node_idx`
(`multi_ambulance_runner.py` lines 72-76): first index strictly improving
the squared distance, starting from `best = None; bd = 1e9`. -/
def nearestScan (nodes : List (ℤ × ℤ)) (pt : ℤ × ℤ) : Option ℕ :=
  (nodes.enum.foldl
    (fun acc ip =>
      if sqDist ip.2 pt < acc.2 then (some ip.1, sqDist ip.2 pt) else acc)
    ((none : Option ℕ), (10 ^ 9 : ℤ))).1

/-- `find_nearest_node_idx(pt)` (`multi_ambulance_runner.py` lines 70-76):
exact dictionary match first, else nearest scan. -/
def find_nearest_node_idx (nodes : List (ℤ × ℤ)) (pt : ℤ × ℤ) : Option ℕ :=
  match nodeMapLookup nodes pt with
  | some i => some i
  | none => nearestScan nodes pt

/-- One polyline's contribution to the adjacency
(`multi_ambulance_runner.py` lines 78-83): skip polylines with fewer than 2
points; snap first and last point; skip when either snap fails or both snap
to the same index; otherwise append the two directed entries
`adj[a].append((b,w))`, `adj[b].append((a,w))` with the shared weight
`w = euclid(nodes[a], nodes[b])` (stored squared). -/
def addPolyEdge (nodes : List (ℤ × ℤ)) (g : List (ℕ × ℕ × ℤ))
    (poly : List (ℤ × ℤ)) : List (ℕ × ℕ × ℤ) :=
  if poly.length < 2 then g
  else
    match find_nearest_node_idx nodes (poly.getD 0 (0, 0)),
        find_nearest_node_idx nodes (poly.getLastD (0, 0)) with
    | some a, some b =>
      if a = b then g
      else
        g ++ [(a, b, sqDist (nodes.getD a (0, 0)) (nodes.getD b (0, 0))),
              (b, a, sqDist (nodes.getD a (0, 0)) (nodes.getD b (0, 0)))]
    | some _, none => g
    | none, _ => g

/-- `build_graph(nodes, polylines)` (`multi_ambulance_runner.py` lines
68-84; the identical construction appears at `path_selection.py` lines
100-110), as the list of directed adjacency entries `(a, b, squared
weight)`. -/
def build_graph (nodes : List (ℤ × ℤ)) (polys : List (List (ℤ × ℤ))) :
    List (ℕ × ℕ × ℤ) :=
  polys.foldl (addPolyEdge nodes) []

theorem build_graph_mem_aux (nodes : List (ℤ × ℤ)) (polys : List (List (ℤ × ℤ)))
    (g : List (ℕ × ℕ × ℤ)) (a b : ℕ) (s : ℤ)
    (h : (a, b, s) ∈ polys.foldl (addPolyEdge nodes) g) :
    (a, b, s) ∈ g ∨
      (a ≠ b ∧ s = sqDist (nodes.getD a (0, 0)) (nodes.getD b (0, 0))) := by
  induction polys generalizing g with
  | nil => exact Or.inl h
  | cons poly t ih =>
    rcases ih (addPolyEdge nodes g poly) h with hmem | hprop
    · unfold addPolyEdge at hmem
      split_ifs at hmem
      · exact Or.inl hmem
      · revert hmem
        cases h1 : find_nearest_node_idx nodes (poly.getD 0 (0, 0)) with
        | none => exact fun hmem => Or.inl hmem
        | some a0 =>
          cases h2 : find_nearest_node_idx nodes (poly.getLastD (0, 0)) with
          | none => exact fun hmem => Or.inl hmem
          | some b0 =>
            dsimp only
            split_ifs with hab
            · exact fun hmem => Or.inl hmem
            · intro hmem
              rcases List.mem_append.mp hmem with hg | hnew
              · exact Or.inl hg
              · rcases List.mem_cons.mp hnew with hEq | hnew2
                · injection hEq with ha hbs
                  injection hbs with hb hs
                  subst ha
                  subst hb
                  subst hs
                  exact Or.inr ⟨hab, rfl⟩
                · have hEq2 : (a, b, s) =
                      (b0, a0, sqDist (nodes.getD a0 (0, 0)) (nodes.getD b0 (0, 0))) :=
                    List.mem_singleton.mp hnew2
                  injection hEq2 with ha hbs
                  injection hbs with hb hs
                  subst ha
                  subst hb
                  subst hs
                  exact Or.inr ⟨fun hc => hab hc.symm, sqDist_comm _ _⟩
    · exact Or.inr hprop

theorem addPolyEdge_short (nodes : List (ℤ × ℤ)) (g : List (ℕ × ℕ × ℤ))
    (poly : List (ℤ × ℤ)) (h : poly.length < 2) : addPolyEdge nodes g poly = g := by
  unfold addPolyEdge
  rw [if_pos h]

theorem build_graph_filter_aux (nodes : List (ℤ × ℤ))
    (polys : List (List (ℤ × ℤ))) :
    ∀ g : List (ℕ × ℕ × ℤ),
      polys.foldl (addPolyEdge nodes) g =
        (polys.filter (fun p => decide (2 ≤ p.length))).foldl (addPolyEdge nodes) g := by
  induction polys with
  | nil => intro g; rfl
  | cons poly t ih =>
    intro g
    by_cases h2 : 2 ≤ poly.length
    · rw [List.filter_cons_of_pos (by simpa using h2)]
      simp only [List.foldl_cons]
      exact ih _
    · rw [List.filter_cons_of_neg (by simpa using h2)]
      simp only [List.foldl_cons]
      rw [addPolyEdge_short nodes g poly (by omega)]
      exact ih g

/-- C6: every adjacency entry produced by `build_graph` joins two distinct
junction indices (a polyline whose two endpoints snap to the same junction
index is skipped); its stored weight is the squared Euclidean distance
between the positions of its two endpoint junctions — equivalently the
source's float weight, `Real.sqrt` of the stored value, equals the Euclidean
distance between the endpoint positions — and polylines with fewer than 2
points contribute no edge: filtering them out leaves the graph unchanged. -/
theorem build_graph_edges (nodes : List (ℤ × ℤ)) (polys : List (List (ℤ × ℤ)))
    (a b : ℕ) (s : ℤ) (h : (a, b, s) ∈ build_graph nodes polys) :
    (a ≠ b ∧ s = sqDist (nodes.getD a (0, 0)) (nodes.getD b (0, 0)) ∧
      Real.sqrt (s : ℝ) =
        Real.sqrt
          ((((nodes.getD a (0, 0)).1 : ℝ) - ((nodes.getD b (0, 0)).1 : ℝ)) ^ 2 +
            (((nodes.getD a (0, 0)).2 : ℝ) - ((nodes.getD b (0, 0)).2 : ℝ)) ^ 2)) ∧
    build_graph nodes polys =
      build_graph nodes (polys.filter (fun p => decide (2 ≤ p.length))) := by
  refine ⟨?_, build_graph_filter_aux nodes polys []⟩
  rcases build_graph_mem_aux nodes polys [] a b s h with hmem | ⟨hne, hs⟩
  · simp at hmem
  · refine ⟨hne, hs, ?_⟩
    subst hs
    congr 1
    push_cast [sqDist]
    ring

/-- Junction coordinates for the C6 witness. -/
def nodesC6 : List (ℤ × ℤ) := [(0, 0), (3, 4)]

/-- A single two-point polyline joining the two junctions, for the C6
witness. -/
def polysC6 : List (List (ℤ × ℤ)) := [[(0, 0), (3, 4)]]

theorem build_graph_edges_witness :
    (0, 1, (25 : ℤ)) ∈ build_graph nodesC6 polysC6 ∧
    (((0 : ℕ) ≠ 1 ∧
        (25 : ℤ) = sqDist (nodesC6.getD 0 (0, 0)) (nodesC6.getD 1 (0, 0)) ∧
        Real.sqrt ((25 : ℤ) : ℝ) =
          Real.sqrt
            ((((nodesC6.getD 0 (0, 0)).1 : ℝ) - ((nodesC6.getD 1 (0, 0)).1 : ℝ)) ^ 2 +
              (((nodesC6.getD 0 (0, 0)).2 : ℝ) - ((nodesC6.getD 1 (0, 0)).2 : ℝ)) ^ 2)) ∧
      build_graph nodesC6 polysC6 =
        build_graph nodesC6 (polysC6.filter (fun p => decide (2 ≤ p.length)))) :=
  ⟨by decide, build_graph_edges nodesC6 polysC6 0 1 25 (by decide)⟩
